import Mathlib

/-!
Verification of the fibble word-game engine (`src/lib.rs`, `src/main.rs`).

Words are modelled as `List Char`; the two word dictionaries — which the
library loads from data files at startup and which the spec treats as an
external, pre-validated input — are passed explicitly as parameters.
Machine integers (`u8`, `usize`) are modelled as `ℕ`; `f64` entropy values
are modelled as real numbers.  The two randomness draws used by the
single-lie mode (`gen_range(0..len)` and `gen_range(0..2)`) are made
explicit parameters `i : ℕ` (the raw index draw, taken `% len`) and
`b : Bool` (`true` meaning the draw `0..2` produced `0`), so that the
theorems quantify over every outcome of the randomness source.
-/

namespace Fibble

/-- `WORD_LENGTH` from `lib.rs`. -/
def WORD_LENGTH : ℕ := 5

/-- `PATTERN_SPACE = 3^WORD_LENGTH` from `lib.rs`. -/
def PATTERN_SPACE : ℕ := 3 ^ WORD_LENGTH

/-- `GameMode` from `lib.rs`. -/
inductive GameMode where
  | Wordle : GameMode
  | Fibble : GameMode
deriving DecidableEq

/-- `LetterState` from `lib.rs`: the per-letter states emitted by scoring,
tagged with the originating (uppercase) character. -/
inductive LetterState where
  | Correct : Char → LetterState
  | Present : Char → LetterState
  | Absent : Char → LetterState
deriving DecidableEq

/-- `LetterState::letter` from `lib.rs`. -/
def LetterState.letter : LetterState → Char
  | .Correct c => c
  | .Present c => c
  | .Absent c => c

/-- Whether a state is `Correct(_)` (the `matches!` test used by
`GuessResult::is_correct`). -/
def isCorrectState : LetterState → Bool
  | .Correct _ => true
  | _ => false

/-- Whether a state is `Present(_)`. -/
def isPresentState : LetterState → Bool
  | .Present _ => true
  | _ => false

/-- Whether a state is `Absent(_)`. -/
def isAbsentState : LetterState → Bool
  | .Absent _ => true
  | _ => false

/-- Numeric rank of a tile state, matching the pattern digits of `lib.rs`
(`Absent = 0`, `Present = 1`, `Correct = 2`). -/
def tileRank : LetterState → ℕ
  | .Correct _ => 2
  | .Present _ => 1
  | .Absent _ => 0

/-- `GuessResult` from `lib.rs`: a scored guess row. -/
structure GuessResult where
  guess : List Char
  letters : List LetterState
deriving DecidableEq

/-- `GuessResult::is_correct` from `lib.rs`. -/
def GuessResult.is_correct (r : GuessResult) : Bool :=
  r.letters.all isCorrectState

/-- `Wordle` (the game struct) from `lib.rs`. -/
structure Wordle where
  secret : List Char
  mode : GameMode
  guesses : List GuessResult
deriving DecidableEq

/-- `WordleError` from `lib.rs` (`InvalidLength { expected, found }` and
`UnknownWord { word }`). -/
inductive WordleError where
  | InvalidLength : ℕ → ℕ → WordleError
  | UnknownWord : List Char → WordleError
deriving DecidableEq

/-- Rust's `char::to_ascii_uppercase` for the characters used here:
maps `'a'..='z'` to `'A'..='Z'`, leaves everything else unchanged. -/
def asciiUpper (c : Char) : Char :=
  if 'a' ≤ c ∧ c ≤ 'z' then Char.ofNat (c.toNat - 32) else c

/-- `normalize` from `lib.rs`: checks the character count against
`WORD_LENGTH`, then uppercases.  (Note: no trimming happens here.) -/
def normalize (w : List Char) : Except WordleError (List Char) :=
  if w.length ≠ WORD_LENGTH then
    .error (.InvalidLength WORD_LENGTH w.length)
  else
    .ok (w.map asciiUpper)

/-- `ensure_allowed` from `lib.rs`, with the allowed-word dictionary passed
explicitly (the Rust code reads the global `WORDLE_ALLOWED_SET`; membership
in that hash set coincides with membership in the allowed list). -/
def ensure_allowed (allowed : List (List Char)) (w : List Char) :
    Except WordleError Unit :=
  if w ∈ allowed then .ok () else .error (.UnknownWord w)

/-- Pass 1 of `compute_pattern_digits` from `lib.rs`: position-by-position,
digit `2` (`PATTERN_CORRECT`) where guess and secret agree, `0` elsewhere. -/
def pass1 : List Char → List Char → List ℕ
  | s :: ss, g :: gs => (if g = s then 2 else 0) :: pass1 ss gs
  | _, _ => []

/-- The leftover counters built during pass 1 of `compute_pattern_digits`:
for each letter, how many non-matching positions of the secret hold it.
(The Rust code indexes a 26-entry array by `letter_index`; a count map keyed
by the character itself is the same data.) -/
def leftovers1 : List Char → List Char → Char → ℕ
  | s :: ss, g :: gs =>
      fun c => (if g = s then 0 else if s = c then 1 else 0) + leftovers1 ss gs c
  | _, _ => fun _ => 0

/-- Pass 2 of `compute_pattern_digits` from `lib.rs`: walk guess positions
left to right; skip `Correct` positions; where the leftover counter for the
guess letter is positive, emit `1` (`PATTERN_PRESENT`) and decrement it,
otherwise emit `0` (`PATTERN_ABSENT`). -/
def pass2 : List Char → List ℕ → (Char → ℕ) → List ℕ
  | g :: gs, d :: ds, left =>
      if d = 2 then
        2 :: pass2 gs ds left
      else if 0 < left g then
        1 :: pass2 gs ds (fun c => if c = g then left g - 1 else left c)
      else
        0 :: pass2 gs ds left
  | _, _, _ => []

/-- `compute_pattern_digits` from `lib.rs`: the two-pass scoring algorithm. -/
def compute_pattern_digits (secret guess : List Char) : List ℕ :=
  pass2 guess (pass1 secret guess) (leftovers1 secret guess)

/-- The digit-to-state conversion used by `score` in `lib.rs`. -/
def mkState (g : Char) (d : ℕ) : LetterState :=
  if d = 2 then .Correct g else if d = 1 then .Present g else .Absent g

/-- `score` from `lib.rs`: zips the guess letters with the pattern digits. -/
def score (secret guess : List Char) : List LetterState :=
  List.zipWith mkState guess (compute_pattern_digits secret guess)

/-- `encode_pattern` from `lib.rs`: base-3 fold, most significant first. -/
def encode_pattern (digits : List ℕ) : ℕ :=
  digits.foldl (fun acc d => acc * 3 + d) 0

/-- The digit-to-display-character map used by `pattern_code_to_string`
(`2 ↦ 'G'`, `1 ↦ 'Y'`, `_ ↦ 'B'`). -/
def digitChar (d : ℕ) : Char :=
  if d = 2 then 'G' else if d = 1 then 'Y' else 'B'

/-- The loop of `pattern_code_to_string` from `lib.rs`: fills `n` characters
from the right, peeling base-3 digits off `code`. -/
def patternChars : ℕ → ℕ → List Char
  | 0, _ => []
  | n + 1, code => patternChars n (code / 3) ++ [digitChar (code % 3)]

/-- `pattern_code_to_string` from `lib.rs` (as a character list). -/
def pattern_code_to_string (code : ℕ) : List Char :=
  patternChars WORD_LENGTH code

/-- `random_lie_state` from `lib.rs`, with the `gen_range(0..2)` draw made
explicit: `b = true` means the draw produced `0` (the first arm). -/
def random_lie_state (b : Bool) (st : LetterState) : LetterState :=
  match st with
  | .Correct c => if b then .Present c else .Absent c
  | .Present c => if b then .Correct c else .Absent c
  | .Absent c => if b then .Correct c else .Present c

/-- `apply_fibble_lie` from `lib.rs`, with the `gen_range(0..letters.len())`
draw made explicit: an arbitrary `i : ℕ` taken modulo the length covers
every possible outcome of the in-range draw. -/
def apply_fibble_lie (i : ℕ) (b : Bool) (letters : List LetterState) :
    List LetterState :=
  match letters with
  | [] => []
  | x :: xs =>
      (x :: xs).set (i % (x :: xs).length)
        (random_lie_state b ((x :: xs).getD (i % (x :: xs).length) (.Absent 'A')))

/-- `Wordle::submit_guess` from `lib.rs`: validate, score, apply the lie in
Fibble mode, append to history.  Returns the updated game together with the
row that the Rust method returns a reference to. -/
def submit_guess (allowed : List (List Char)) (i : ℕ) (b : Bool)
    (game : Wordle) (guess : List Char) :
    Except WordleError (Wordle × GuessResult) :=
  match normalize guess with
  | .error e => .error e
  | .ok ng =>
    match ensure_allowed allowed ng with
    | .error e => .error e
    | .ok _ =>
      let letters0 := score game.secret ng
      let letters :=
        match game.mode with
        | .Fibble => apply_fibble_lie i b letters0
        | .Wordle => letters0
      let row : GuessResult := ⟨ng, letters⟩
      .ok ({ game with guesses := game.guesses ++ [row] }, row)

/-- `GuessEntropy` from `lib.rs`: the guess together with its
`[usize; PATTERN_SPACE]` pattern-count array (modelled as a count map). -/
structure GuessEntropy where
  guess : List Char
  pattern_counts : ℕ → ℕ

/-- The pattern-count array read off in index order, as
`pattern_counts.iter()` traverses it. -/
def countsList (e : GuessEntropy) : List ℕ :=
  (List.range PATTERN_SPACE).map e.pattern_counts

/-- `GuessEntropy::total_secrets` from `lib.rs`: sum of all counters. -/
def total_secrets (e : GuessEntropy) : ℕ :=
  (countsList e).sum

/-- The fold inside `GuessEntropy::entropy_bits`, starting from an arbitrary
accumulator: zero counters are skipped, a nonzero counter `c` contributes
`-(c/total) * log2 (c/total)`. -/
noncomputable def entropyFoldFrom (total : ℝ) (acc : ℝ) (counts : List ℕ) : ℝ :=
  counts.foldl
    (fun (a : ℝ) (c : ℕ) =>
      if c = 0 then a
      else a - ((c : ℝ) / total) * Real.logb 2 ((c : ℝ) / total))
    acc

/-- `GuessEntropy::entropy_bits` from `lib.rs`. -/
noncomputable def entropy_bits (e : GuessEntropy) : ℝ :=
  entropyFoldFrom (total_secrets e) 0 (countsList e)

/-- The counting loop of `analyze_guess_against` from `lib.rs`: one
increment of the pattern-code cell per secret. -/
def tally (guess : List Char) : List (List Char) → (ℕ → ℕ) → (ℕ → ℕ)
  | [], cnt => cnt
  | s :: rest, cnt =>
      tally guess rest
        (fun code =>
          if code = encode_pattern (compute_pattern_digits s guess) then
            cnt code + 1
          else cnt code)

/-- `analyze_guess_against` from `lib.rs`. -/
def analyze_guess_against (allowed : List (List Char)) (guess : List Char)
    (secrets : List (List Char)) : Except WordleError GuessEntropy :=
  match normalize guess with
  | .error e => .error e
  | .ok ng =>
    match ensure_allowed allowed ng with
    | .error e => .error e
    | .ok _ => .ok ⟨ng, tally ng secrets (fun _ => 0)⟩

/-- `fibble_guess_matches` from `lib.rs`: the true pattern of the candidate
against the row's guess must differ from the reported letters in exactly one
zipped position. -/
def fibble_guess_matches (secret : List Char) (row : GuessResult) : Bool :=
  ((List.zip (score secret row.guess) row.letters).filter
      (fun p => decide (p.1 ≠ p.2))).length = 1

/-- `fibble_history_matches` from `lib.rs`. -/
def fibble_history_matches (secret : List Char) (rows : List GuessResult) : Bool :=
  rows.all (fibble_guess_matches secret)

/-- `secret_matches_history` from `lib.rs`. -/
def secret_matches_history (secret : List Char) (game : Wordle) : Bool :=
  match game.mode with
  | .Wordle => game.guesses.all (fun r => decide (score secret r.guess = r.letters))
  | .Fibble => fibble_history_matches secret game.guesses

/-- `remaining_secrets` from `lib.rs`, with the secret dictionary passed
explicitly (the Rust code filters the global `WORDLE_SECRET_LIST`). -/
def remaining_secrets (secretList : List (List Char)) (game : Wordle) :
    List (List Char) :=
  secretList.filter (fun w => secret_matches_history w game)

/-- The successfully analyzed entries of the allowed-word scan, in allowed
list order (`allowed_words().iter().filter_map(|g| analyze(..).ok())`). -/
def analyzedList (allowed candidates : List (List Char)) : List GuessEntropy :=
  allowed.filterMap (fun g => (analyze_guess_against allowed g candidates).toOption)

/-- Rust's `Iterator::max_by` with the `entropy_bits` comparator, as used by
`best_information_guess`: a left fold that keeps the accumulator only when it
compares strictly greater, so equal maxima resolve to the last element. -/
noncomputable def rustMaxBy : List GuessEntropy → Option GuessEntropy
  | [] => none
  | x :: xs =>
      some (xs.foldl (fun acc y => if entropy_bits y < entropy_bits acc then acc else y) x)

/-- `best_information_guess` from `lib.rs`. -/
noncomputable def best_information_guess (allowed secretList : List (List Char))
    (game : Wordle) : Option GuessEntropy :=
  if remaining_secrets secretList game = [] then none
  else rustMaxBy (analyzedList allowed (remaining_secrets secretList game))

/-- The best-suggestion fold of `calculate_guess_suggestions` from `main.rs`:
`best` is replaced only when the new entry's entropy is strictly greater, so
equal maxima resolve to the first element. -/
noncomputable def calcBestFold (l : List GuessEntropy) : Option GuessEntropy :=
  l.foldl
    (fun best y =>
      match best with
      | none => some y
      | some cur => if entropy_bits cur < entropy_bits y then some y else some cur)
    none

/-- `best_guess_with_progress` from `main.rs`, reduced to the best-guess word
and its entropy.  The on-disk first-guess cache is omitted: per the spec the
observable result must be identical whether the cache is present or absent,
and the cache-miss path runs `calculate_guess_suggestions` below. -/
noncomputable def best_guess_with_progress (allowed secretList : List (List Char))
    (game : Wordle) : Option (List Char × ℝ) :=
  match remaining_secrets secretList game with
  | [] => none
  | [w] => some (w, 0)
  | w1 :: w2 :: rest =>
      (calcBestFold (analyzedList allowed (w1 :: w2 :: rest))).map
        (fun e => (e.guess, entropy_bits e))

/-- The spec's notion of per-row tile Hamming distance between two patterns
(number of positions whose tile states differ). -/
def hammingTiles : List LetterState → List LetterState → ℕ
  | a :: as, b :: bs => (if a = b then 0 else 1) + hammingTiles as bs
  | _, _ => 0

/-- "CIGAR" -/
def cigarW : List Char := ['C', 'I', 'G', 'A', 'R']

/-- "ROBOT" -/
def robotW : List Char := ['R', 'O', 'B', 'O', 'T']

/-- "APPLE" -/
def appleW : List Char := ['A', 'P', 'P', 'L', 'E']

/-- "ALLOT" -/
def allotW : List Char := ['A', 'L', 'L', 'O', 'T']

/-- A two-word allowed dictionary for concrete runs. -/
def cexAllowed : List (List Char) := [cigarW, robotW]

/-- A one-word secret dictionary for concrete runs. -/
def cexSecrets : List (List Char) := [cigarW]

/-- A fresh Wordle-mode game with secret CIGAR. -/
def game0 : Wordle := ⟨cigarW, GameMode.Wordle, []⟩

/-- A fresh Fibble-mode game with secret CIGAR. -/
def gameF : Wordle := ⟨cigarW, GameMode.Fibble, []⟩

/-- The analysis entry produced for guess CIGAR against the single
candidate CIGAR. -/
def eCigarCex : GuessEntropy := ⟨cigarW, tally cigarW [cigarW] (fun _ => 0)⟩

/-- The analysis entry produced for guess ROBOT against the single
candidate CIGAR. -/
def eRobotCex : GuessEntropy := ⟨robotW, tally robotW [cigarW] (fun _ => 0)⟩

/-! ### Basic lemmas about the pattern code -/

lemma encode_pattern_append (ds : List ℕ) (d : ℕ) :
    encode_pattern (ds ++ [d]) = encode_pattern ds * 3 + d := by
  simp [encode_pattern, List.foldl_append]

lemma patternChars_encode (ds : List ℕ) (h : ∀ d ∈ ds, d < 3) :
    patternChars ds.length (encode_pattern ds) = ds.map digitChar ∧
      encode_pattern ds < 3 ^ ds.length := by
  induction ds using List.reverseRecOn with
  | nil => simp [patternChars, encode_pattern]
  | append_singleton ds d ih =>
      have hd : d < 3 := h d (by simp)
      have hds : ∀ x ∈ ds, x < 3 := fun x hx => h x (by simp [hx])
      obtain ⟨ih1, ih2⟩ := ih hds
      have hdiv : (encode_pattern ds * 3 + d) / 3 = encode_pattern ds := by
        omega
      have hmod : (encode_pattern ds * 3 + d) % 3 = d := by
        omega
      constructor
      · rw [encode_pattern_append]
        have hlen : (ds ++ [d]).length = ds.length + 1 := by simp
        rw [hlen]
        rw [patternChars, hdiv, hmod, ih1]
        simp
      · rw [encode_pattern_append]
        have : encode_pattern ds + 1 ≤ 3 ^ ds.length := ih2
        have h3 : (encode_pattern ds + 1) * 3 ≤ 3 ^ ds.length * 3 :=
          Nat.mul_le_mul_right 3 this
        have hpow : 3 ^ (ds ++ [d]).length = 3 ^ ds.length * 3 := by
          simp [pow_succ]
        omega

/-! ### Basic lemmas about the entropy fold -/

lemma entropyFoldFrom_nil (T acc : ℝ) : entropyFoldFrom T acc [] = acc := rfl

lemma entropyFoldFrom_cons (T acc : ℝ) (c : ℕ) (cs : List ℕ) :
    entropyFoldFrom T acc (c :: cs)
      = entropyFoldFrom T
          (if c = 0 then acc
           else acc - ((c : ℝ) / T) * Real.logb 2 ((c : ℝ) / T)) cs := rfl

lemma entropyFoldFrom_const (T : ℝ) :
    ∀ (counts : List ℕ) (acc : ℝ),
      (∀ c ∈ counts, c = 0 ∨ (c : ℝ) = T) → entropyFoldFrom T acc counts = acc
  | [], acc, _ => rfl
  | c :: cs, acc, h => by
      have ih := entropyFoldFrom_const T cs
      rw [entropyFoldFrom_cons]
      by_cases h0 : c = 0
      · rw [if_pos h0]
        exact ih acc (fun x hx => h x (by simp [hx]))
      · have hT : (c : ℝ) = T := (h c (by simp)).resolve_left h0
        have hcne : ((c : ℝ)) ≠ 0 := Nat.cast_ne_zero.mpr h0
        have hdiv : (c : ℝ) / T = 1 := by rw [← hT]; exact div_self hcne
        rw [if_neg h0, hdiv, Real.logb_one, mul_zero, sub_zero]
        exact ih acc (fun x hx => h x (by simp [hx]))

lemma entropyFoldFrom_filter (T : ℝ) :
    ∀ (counts : List ℕ) (acc : ℝ),
      entropyFoldFrom T acc counts
        = entropyFoldFrom T acc (counts.filter (fun c => decide (c ≠ 0)))
  | [], _ => rfl
  | c :: cs, acc => by
      by_cases h0 : c = 0
      · rw [show (c :: cs).filter (fun c => decide (c ≠ 0))
              = cs.filter (fun c => decide (c ≠ 0)) by simp [h0]]
        rw [entropyFoldFrom_cons, if_pos h0]
        exact entropyFoldFrom_filter T cs acc
      · rw [show (c :: cs).filter (fun c => decide (c ≠ 0))
              = c :: cs.filter (fun c => decide (c ≠ 0)) by simp [h0]]
        rw [entropyFoldFrom_cons, entropyFoldFrom_cons, if_neg h0]
        exact entropyFoldFrom_filter T cs _

/-! ### Hamming distance and the lie injector -/

lemma hammingTiles_self : ∀ l : List LetterState, hammingTiles l l = 0
  | [] => rfl
  | _ :: xs => by simp [hammingTiles, hammingTiles_self xs]

lemma hammingTiles_set :
    ∀ (l : List LetterState) (j : ℕ) (x : LetterState),
      j < l.length → x ≠ l.getD j (.Absent 'A') →
      hammingTiles l (l.set j x) = 1
  | a :: as, 0, x, _, hne => by
      have : a ≠ x := fun h => hne (by simp [h, List.getD])
      simp [hammingTiles, List.set, this, hammingTiles_self]
  | a :: as, j + 1, x, hj, hne => by
      have hj' : j < as.length := by simpa using hj
      have hne' : x ≠ as.getD j (.Absent 'A') := by simpa [List.getD] using hne
      simp [hammingTiles, List.set, hammingTiles_set as j x hj' hne']

lemma random_lie_state_ne (b : Bool) (st : LetterState) :
    random_lie_state b st ≠ st := by
  cases st <;> cases b <;> simp [random_lie_state]

lemma random_lie_state_letter (b : Bool) (st : LetterState) :
    (random_lie_state b st).letter = st.letter := by
  cases st <;> cases b <;> simp [random_lie_state, LetterState.letter]

lemma apply_fibble_lie_eq (i : ℕ) (b : Bool) (l : List LetterState) (h : l ≠ []) :
    apply_fibble_lie i b l
      = l.set (i % l.length) (random_lie_state b (l.getD (i % l.length) (.Absent 'A'))) := by
  cases l with
  | nil => exact absurd rfl h
  | cons x xs => rfl

/-! ### Generic list helpers -/

lemma zipWith_eq_map_zip {α β γ : Type} (f : α → β → γ) :
    ∀ (l₁ : List α) (l₂ : List β),
      List.zipWith f l₁ l₂ = (List.zip l₁ l₂).map (fun q => f q.1 q.2)
  | [], _ => by simp
  | _ :: _, [] => by simp
  | a :: as, b :: bs => by
      simp only [List.zipWith_cons_cons, List.zip_cons_cons, List.map_cons]
      rw [zipWith_eq_map_zip f as bs]

lemma countP_map' {α β : Type} (p : β → Bool) (f : α → β) :
    ∀ l : List α, (l.map f).countP p = l.countP (fun a => p (f a))
  | [] => rfl
  | a :: as => by
      simp only [List.map_cons, List.countP_cons, countP_map' p f as]

lemma filter_map' {α β : Type} (p : β → Bool) (f : α → β) :
    ∀ l : List α, (l.map f).filter p = (l.filter (fun a => p (f a))).map f
  | [] => rfl
  | a :: as => by
      by_cases h : p (f a)
      · simp [List.filter_cons, h, filter_map' p f as]
      · simp [List.filter_cons, h, filter_map' p f as]

lemma countP_or_split {α : Type} (p q r : α → Bool)
    (hdisj : ∀ a, ¬(q a = true ∧ r a = true)) :
    ∀ l : List α,
      l.countP (fun a => p a && (q a || r a))
        = l.countP (fun a => p a && q a) + l.countP (fun a => p a && r a)
  | [] => rfl
  | a :: as => by
      have ih := countP_or_split p q r hdisj as
      by_cases hq : q a = true
      · have hr : r a = false := by
          cases hrv : r a
          · rfl
          · exact absurd ⟨hq, hrv⟩ (hdisj a)
        by_cases hp : p a = true <;>
          simp [List.countP_cons, hp, hq, hr, ih] <;> omega
      · have hq' : q a = false := Bool.eq_false_iff.mpr hq
        by_cases hp : p a = true <;> by_cases hr : r a = true <;>
          simp [List.countP_cons, hp, hq', hr, ih] <;> omega

lemma snd_mem_of_mem_zip {α β : Type} :
    ∀ {l₁ : List α} {l₂ : List β} {q : α × β}, q ∈ List.zip l₁ l₂ → q.2 ∈ l₂
  | [], _, _, h => by simp at h
  | _ :: _, [], _, h => by simp at h
  | a :: as, b :: bs, q, h => by
      rcases (List.mem_cons).mp h with h | h
      · subst h; exact List.mem_cons_self b _
      · exact List.mem_cons_of_mem b (snd_mem_of_mem_zip h)

/-! ### Structure of pass 2 -/

lemma pass2_cons (g : Char) (gs : List Char) (d : ℕ) (ds : List ℕ)
    (left : Char → ℕ) :
    pass2 (g :: gs) (d :: ds) left
      = if d = 2 then 2 :: pass2 gs ds left
        else if 0 < left g then
          1 :: pass2 gs ds (fun c => if c = g then left g - 1 else left c)
        else 0 :: pass2 gs ds left := rfl

lemma pass2_nil (ds : List ℕ) (left : Char → ℕ) : pass2 [] ds left = [] := rfl

lemma pass2_nil' (gs : List Char) (left : Char → ℕ) : pass2 gs [] left = [] := by
  cases gs <;> rfl

lemma pass2_length :
    ∀ (gs : List Char) (ds : List ℕ) (left : Char → ℕ),
      (pass2 gs ds left).length = min gs.length ds.length
  | [], ds, left => by simp [pass2_nil]
  | g :: gs, [], left => by simp [pass2_nil']
  | g :: gs, d :: ds, left => by
      rw [pass2_cons]
      by_cases h2 : d = 2
      · simp [h2, pass2_length gs ds left] <;> omega
      · by_cases hl : 0 < left g
        · simp [h2, hl, pass2_length gs ds _] <;> omega
        · simp [h2, hl, pass2_length gs ds left] <;> omega

lemma pass2_mem_le :
    ∀ (gs : List Char) (ds : List ℕ) (left : Char → ℕ),
      ∀ d ∈ pass2 gs ds left, d = 2 ∨ d ≤ 1
  | [], ds, left => by simp [pass2_nil]
  | g :: gs, [], left => by simp [pass2_nil']
  | g :: gs, d :: ds, left => by
      rw [pass2_cons]
      by_cases h2 : d = 2
      · simp only [if_pos h2]
        intro x hx
        rcases (List.mem_cons).mp hx with h | h
        · exact Or.inl h
        · exact pass2_mem_le gs ds left x h
      · rw [if_neg h2]
        by_cases hl : 0 < left g
        · rw [if_pos hl]
          intro x hx
          rcases (List.mem_cons).mp hx with h | h
          · exact Or.inr (by omega)
          · exact pass2_mem_le gs ds _ x h
        · rw [if_neg hl]
          intro x hx
          rcases (List.mem_cons).mp hx with h | h
          · exact Or.inr (by omega)
          · exact pass2_mem_le gs ds left x h

lemma pass2_countP_two (A : Char → Bool) :
    ∀ (gs : List Char) (ds : List ℕ) (left : Char → ℕ),
      (List.zip gs (pass2 gs ds left)).countP
        (fun q => A q.1 && decide (q.2 = 2))
      = (List.zip gs ds).countP (fun q => A q.1 && decide (q.2 = 2))
  | [], ds, left => by simp [pass2_nil]
  | g :: gs, [], left => by simp [pass2_nil']
  | g :: gs, d :: ds, left => by
      rw [pass2_cons]
      by_cases h2 : d = 2
      · rw [if_pos h2]
        simp only [List.zip_cons_cons, List.countP_cons,
          pass2_countP_two A gs ds left, h2]
      · rw [if_neg h2]
        by_cases hl : 0 < left g
        · rw [if_pos hl]
          simp only [List.zip_cons_cons, List.countP_cons,
            pass2_countP_two A gs ds _]
          simp [h2]
        · rw [if_neg hl]
          simp only [List.zip_cons_cons, List.countP_cons,
            pass2_countP_two A gs ds left]
          simp [h2]

lemma pass2_countP_one (ℓ : Char) :
    ∀ (gs : List Char) (ds : List ℕ) (left : Char → ℕ),
      (List.zip gs (pass2 gs ds left)).countP
        (fun q => decide (q.1 = ℓ) && decide (q.2 = 1))
      ≤ left ℓ
  | [], ds, left => by simp [pass2_nil]
  | g :: gs, [], left => by simp [pass2_nil']
  | g :: gs, d :: ds, left => by
      rw [pass2_cons]
      by_cases h2 : d = 2
      · rw [if_pos h2, List.zip_cons_cons]
        have ih := pass2_countP_one ℓ gs ds left
        rw [List.countP_cons_of_neg _ _ (by simp)]
        exact ih
      · rw [if_neg h2]
        by_cases hl : 0 < left g
        · rw [if_pos hl, List.zip_cons_cons]
          have ih := pass2_countP_one ℓ gs ds
            (fun c => if c = g then left g - 1 else left c)
          by_cases hgl : g = ℓ
          · subst hgl
            have ih' : (List.zip gs
                  (pass2 gs ds (fun c => if c = g then left g - 1 else left c))).countP
                    (fun q => decide (q.1 = g) && decide (q.2 = 1))
                  ≤ left g - 1 := by
              simpa using ih
            rw [List.countP_cons_of_pos _ _ (by simp)]
            omega
          · have hlg : ℓ ≠ g := fun h => hgl h.symm
            have ih' : (List.zip gs
                  (pass2 gs ds (fun c => if c = g then left g - 1 else left c))).countP
                    (fun q => decide (q.1 = ℓ) && decide (q.2 = 1))
                  ≤ left ℓ := by
              simpa [hlg] using ih
            rw [List.countP_cons_of_neg _ _ (by simp [hgl])]
            exact ih'
        · rw [if_neg hl, List.zip_cons_cons]
          have ih := pass2_countP_one ℓ gs ds left
          rw [List.countP_cons_of_neg _ _ (by simp)]
          exact ih

lemma pass2_zero_persist (ℓ : Char) :
    ∀ (gs : List Char) (ds : List ℕ) (left : Char → ℕ), left ℓ = 0 →
      ∀ q ∈ List.zip gs (pass2 gs ds left), q.1 = ℓ → q.2 ≠ 1
  | [], ds, left, _ => by simp [pass2_nil]
  | g :: gs, [], left, _ => by simp [pass2_nil']
  | g :: gs, d :: ds, left, h0 => by
      rw [pass2_cons]
      by_cases h2 : d = 2
      · rw [if_pos h2]
        intro q hq hql
        rcases (List.mem_cons).mp hq with h | h
        · subst h; exact (by omega : (2 : ℕ) ≠ 1)
        · exact pass2_zero_persist ℓ gs ds left h0 q h hql
      · rw [if_neg h2]
        by_cases hl : 0 < left g
        · rw [if_pos hl]
          intro q hq hql
          rcases (List.mem_cons).mp hq with h | h
          · subst h
            simp only at hql
            subst hql
            omega
          · have hleft : (fun c => if c = g then left g - 1 else left c) ℓ = 0 := by
              by_cases he : ℓ = g
              · subst he; omega
              · simp [he, h0]
            exact pass2_zero_persist ℓ gs ds _ hleft q h hql
        · rw [if_neg hl]
          intro q hq hql
          rcases (List.mem_cons).mp hq with h | h
          · subst h; exact (by omega : (0 : ℕ) ≠ 1)
          · exact pass2_zero_persist ℓ gs ds left h0 q h hql

lemma pass2_pairwise (ℓ : Char) :
    ∀ (gs : List Char) (ds : List ℕ) (left : Char → ℕ),
      ((List.zip gs (pass2 gs ds left)).filter
          (fun q => decide (q.1 = ℓ) && decide (q.2 ≠ 2))).Pairwise
        (fun a b => b.2 ≤ a.2)
  | [], ds, left => by simp [pass2_nil]
  | g :: gs, [], left => by simp [pass2_nil']
  | g :: gs, d :: ds, left => by
      rw [pass2_cons]
      by_cases h2 : d = 2
      · rw [if_pos h2]
        simp only [List.zip_cons_cons, List.filter_cons]
        have : (decide ((g, (2 : ℕ)).1 = ℓ) && decide ((g, (2 : ℕ)).2 ≠ 2)) = false := by
          simp
        rw [this]
        exact pass2_pairwise ℓ gs ds left
      · rw [if_neg h2]
        by_cases hl : 0 < left g
        · rw [if_pos hl]
          simp only [List.zip_cons_cons, List.filter_cons]
          by_cases hgl : g = ℓ
          · have : (decide ((g, (1 : ℕ)).1 = ℓ) && decide ((g, (1 : ℕ)).2 ≠ 2)) = true := by
              simp [hgl]
            rw [this]
            refine List.Pairwise.cons ?_ (pass2_pairwise ℓ gs ds _)
            intro q hq
            have hq' := List.mem_of_mem_filter hq
            have hmem := snd_mem_of_mem_zip hq'
            have hne2 : ¬(q.2 = 2) := by
              have := List.of_mem_filter hq
              simp only [Bool.and_eq_true, decide_eq_true_eq] at this
              exact this.2
            rcases pass2_mem_le gs ds _ q.2 hmem with h | h
            · exact absurd h hne2
            · simpa using h
          · have : (decide ((g, (1 : ℕ)).1 = ℓ) && decide ((g, (1 : ℕ)).2 ≠ 2)) = false := by
              simp [hgl]
            rw [this]
            exact pass2_pairwise ℓ gs ds _
        · rw [if_neg hl]
          simp only [List.zip_cons_cons, List.filter_cons]
          by_cases hgl : g = ℓ
          · have : (decide ((g, (0 : ℕ)).1 = ℓ) && decide ((g, (0 : ℕ)).2 ≠ 2)) = true := by
              simp [hgl]
            rw [this]
            refine List.Pairwise.cons ?_ (pass2_pairwise ℓ gs ds left)
            intro q hq
            have hq' := List.mem_of_mem_filter hq
            have hpred := List.of_mem_filter hq
            simp only [Bool.and_eq_true, decide_eq_true_eq] at hpred
            have h0 : left ℓ = 0 := by
              subst hgl; omega
            have hne1 := pass2_zero_persist ℓ gs ds left h0 q hq' hpred.1
            have hmem := snd_mem_of_mem_zip hq'
            rcases pass2_mem_le gs ds left q.2 hmem with h | h
            · exact absurd h hpred.2
            · simp only
              omega
          · have : (decide ((g, (0 : ℕ)).1 = ℓ) && decide ((g, (0 : ℕ)).2 ≠ 2)) = false := by
              simp [hgl]
            rw [this]
            exact pass2_pairwise ℓ gs ds left

/-! ### Pass 1 and the leftover counters -/

lemma pass1_countP_two (A : Char → Bool) :
    ∀ (s g : List Char),
      (List.zip g (pass1 s g)).countP (fun q => A q.1 && decide (q.2 = 2))
        = (List.zip s g).countP (fun p => A p.2 && decide (p.1 = p.2))
  | [], g => by cases g <;> simp [pass1]
  | _ :: _, [] => by simp [pass1]
  | st :: ss, gh :: gs => by
      have ih := pass1_countP_two A ss gs
      by_cases h : gh = st
      · subst h
        by_cases hA : A gh = true <;>
          simp [pass1, hA, List.countP_cons, ih]
      · have h' : ¬st = gh := fun hh => h hh.symm
        by_cases hA : A gh = true <;>
          simp [pass1, h, h', hA, List.countP_cons, ih]

lemma count_split (ℓ : Char) :
    ∀ (s g : List Char), s.length = g.length →
      s.countP (fun c => decide (c = ℓ))
        = (List.zip s g).countP (fun p => decide (p.2 = ℓ) && decide (p.1 = p.2))
          + leftovers1 s g ℓ
  | [], [], _ => by simp [leftovers1]
  | [], _ :: _, h => by simp at h
  | _ :: _, [], h => by simp at h
  | st :: ss, gh :: gs, h => by
      have h' : ss.length = gs.length := by simpa using h
      have ih := count_split ℓ ss gs h'
      rw [List.zip_cons_cons]
      have hleft : leftovers1 (st :: ss) (gh :: gs) ℓ
          = (if gh = st then 0 else if st = ℓ then 1 else 0) + leftovers1 ss gs ℓ := rfl
      rw [hleft]
      have haveL : (st :: ss).countP (fun c => decide (c = ℓ))
          = ss.countP (fun c => decide (c = ℓ)) + (if st = ℓ then 1 else 0) := by
        rw [List.countP_cons]
        simp only [decide_eq_true_eq]
      have haveR : ((st, gh) :: List.zip ss gs).countP
            (fun p => decide (p.2 = ℓ) && decide (p.1 = p.2))
          = (List.zip ss gs).countP
              (fun p => decide (p.2 = ℓ) && decide (p.1 = p.2))
            + (if gh = ℓ ∧ st = gh then 1 else 0) := by
        rw [List.countP_cons]
        simp only [Bool.and_eq_true, decide_eq_true_eq]
      rw [haveL, haveR]
      by_cases hgs : gh = st
      · rw [if_pos hgs]
        by_cases hl : st = ℓ
        · rw [if_pos hl,
            if_pos (show gh = ℓ ∧ st = gh from ⟨hgs.trans hl, hgs.symm⟩)]
          omega
        · rw [if_neg hl,
            if_neg (show ¬(gh = ℓ ∧ st = gh) from fun hc => hl (hc.2.trans hc.1))]
          omega
      · rw [if_neg hgs,
          if_neg (show ¬(gh = ℓ ∧ st = gh) from fun hc => hgs hc.2.symm)]
        by_cases hl : st = ℓ
        · rw [if_pos hl]
          omega
        · rw [if_neg hl]
          omega

/-! ### Relating `score` to the pattern digits -/

lemma score_eq_map (s g : List Char) :
    score s g
      = (List.zip g (compute_pattern_digits s g)).map (fun q => mkState q.1 q.2) :=
  zipWith_eq_map_zip mkState g (compute_pattern_digits s g)

lemma isCorrect_mkState (gc : Char) (d : ℕ) :
    isCorrectState (mkState gc d) = decide (d = 2) := by
  by_cases h2 : d = 2
  · simp [mkState, h2, isCorrectState]
  · by_cases h1 : d = 1 <;> simp [mkState, h2, h1, isCorrectState]

lemma correctOrPresent_mkState (gc : Char) (d : ℕ) :
    (isCorrectState (mkState gc d) || isPresentState (mkState gc d))
      = (decide (d = 2) || decide (d = 1)) := by
  by_cases h2 : d = 2
  · simp [mkState, h2, isCorrectState, isPresentState]
  · by_cases h1 : d = 1 <;>
      simp [mkState, h2, h1, isCorrectState, isPresentState]

lemma letter_mkState (gc : Char) (d : ℕ) : (mkState gc d).letter = gc := by
  by_cases h2 : d = 2
  · simp [mkState, h2, LetterState.letter]
  · by_cases h1 : d = 1 <;> simp [mkState, h2, h1, LetterState.letter]

lemma tileRank_mkState (gc : Char) (d : ℕ) (h : d = 2 ∨ d ≤ 1) :
    tileRank (mkState gc d) = d := by
  by_cases h2 : d = 2
  · simp [mkState, h2, tileRank]
  · by_cases h1 : d = 1
    · simp [mkState, h2, h1, tileRank]
    · have h0 : d = 0 := by omega
      simp [mkState, h2, h1, h0, tileRank]

lemma countP_ext {α : Type} {p q : α → Bool} (h : ∀ a, p a = q a) (l : List α) :
    l.countP p = l.countP q := by
  rw [show p = q from funext h]

lemma filter_ext {α : Type} {p q : α → Bool} (h : ∀ a, p a = q a) (l : List α) :
    l.filter p = l.filter q := by
  rw [show p = q from funext h]

/-! ### Claim C1 -/

/-- C1: for 5-letter secret and guess, the two-pass pattern satisfies:
(1) the number of `Correct` tiles equals the number of positions where
secret and guess agree; (2) for every letter, the number of tiles marked
`Present` or `Correct` for that letter never exceeds that letter's
occurrence count in the secret; (3) among the non-`Correct` tiles of any
letter, ranks never increase left to right — earlier duplicates win
`Present`, later ones get `Absent`; and in particular
`computePattern("APPLE","ALLOT")` is
`[Correct A, Present L, Absent L, Absent O, Absent T]`. -/
theorem c1_two_pass_pattern (s g : List Char) (hs : s.length = 5) (hg : g.length = 5) :
    ((score s g).countP isCorrectState
        = (List.zip s g).countP (fun p => decide (p.1 = p.2)))
    ∧ (∀ ℓ : Char,
        (score s g).countP
            (fun t => decide (t.letter = ℓ) && (isCorrectState t || isPresentState t))
          ≤ s.countP (fun c => decide (c = ℓ)))
    ∧ (∀ ℓ : Char,
        ((score s g).filter
            (fun t => decide (t.letter = ℓ) && !(isCorrectState t))).Pairwise
          (fun a b => tileRank b ≤ tileRank a))
    ∧ score appleW allotW
        = [.Correct 'A', .Present 'L', .Absent 'L', .Absent 'O', .Absent 'T'] := by
  have hlen : s.length = g.length := by rw [hs, hg]
  refine ⟨?_, ?_, ?_, by decide⟩
  · calc (score s g).countP isCorrectState
        = (List.zip g (compute_pattern_digits s g)).countP
            (fun q => isCorrectState (mkState q.1 q.2)) := by
          rw [score_eq_map, countP_map']
      _ = (List.zip g (compute_pattern_digits s g)).countP
            (fun q => (fun _ : Char => true) q.1 && decide (q.2 = 2)) :=
          countP_ext (fun a => by simp [isCorrect_mkState]) _
      _ = (List.zip g (pass1 s g)).countP
            (fun q => (fun _ : Char => true) q.1 && decide (q.2 = 2)) :=
          pass2_countP_two (fun _ : Char => true) g (pass1 s g) (leftovers1 s g)
      _ = (List.zip s g).countP
            (fun p => (fun _ : Char => true) p.2 && decide (p.1 = p.2)) :=
          pass1_countP_two (fun _ : Char => true) s g
      _ = (List.zip s g).countP (fun p => decide (p.1 = p.2)) :=
          countP_ext (fun a => by simp) _
  · intro ℓ
    have e1 : (score s g).countP
          (fun t => decide (t.letter = ℓ) && (isCorrectState t || isPresentState t))
        = (List.zip g (compute_pattern_digits s g)).countP
            (fun q => decide (q.1 = ℓ) && (decide (q.2 = 2) || decide (q.2 = 1))) := by
      rw [score_eq_map, countP_map']
      exact countP_ext
        (fun a => by rw [letter_mkState, correctOrPresent_mkState]) _
    have hdisj : ∀ a : Char × ℕ,
        ¬(decide (a.2 = 2) = true ∧ decide (a.2 = 1) = true) := by
      intro a ⟨x, y⟩
      simp only [decide_eq_true_eq] at x y
      omega
    have e2 := countP_or_split (fun q : Char × ℕ => decide (q.1 = ℓ))
      (fun q => decide (q.2 = 2)) (fun q => decide (q.2 = 1)) hdisj
      (List.zip g (compute_pattern_digits s g))
    have e3 : (List.zip g (compute_pattern_digits s g)).countP
          (fun q => decide (q.1 = ℓ) && decide (q.2 = 2))
        = (List.zip s g).countP
            (fun p => decide (p.2 = ℓ) && decide (p.1 = p.2)) := by
      calc (List.zip g (compute_pattern_digits s g)).countP
            (fun q => decide (q.1 = ℓ) && decide (q.2 = 2))
          = (List.zip g (pass1 s g)).countP
              (fun q => decide (q.1 = ℓ) && decide (q.2 = 2)) :=
            pass2_countP_two (fun c : Char => decide (c = ℓ)) g (pass1 s g) (leftovers1 s g)
        _ = (List.zip s g).countP
              (fun p => decide (p.2 = ℓ) && decide (p.1 = p.2)) :=
            pass1_countP_two (fun c : Char => decide (c = ℓ)) s g
    have e4 : (List.zip g (compute_pattern_digits s g)).countP
          (fun q => decide (q.1 = ℓ) && decide (q.2 = 1))
        ≤ leftovers1 s g ℓ :=
      pass2_countP_one ℓ g (pass1 s g) (leftovers1 s g)
    have e5 := count_split ℓ s g hlen
    omega
  · intro ℓ
    rw [score_eq_map, filter_map', List.pairwise_map]
    have efil : (List.zip g (compute_pattern_digits s g)).filter
          (fun a => (fun t => decide (t.letter = ℓ) && !(isCorrectState t))
            (mkState a.1 a.2))
        = (List.zip g (compute_pattern_digits s g)).filter
            (fun q => decide (q.1 = ℓ) && decide (q.2 ≠ 2)) :=
      filter_ext (fun a => by
        simp only [letter_mkState, isCorrect_mkState, ← decide_not]) _
    rw [efil]
    refine List.Pairwise.imp_of_mem ?_
      (pass2_pairwise ℓ g (pass1 s g) (leftovers1 s g))
    intro a b ha hb hab
    have hma := snd_mem_of_mem_zip (List.mem_of_mem_filter ha)
    have hmb := snd_mem_of_mem_zip (List.mem_of_mem_filter hb)
    have hra := tileRank_mkState a.1 a.2
      (pass2_mem_le g (pass1 s g) (leftovers1 s g) a.2 hma)
    have hrb := tileRank_mkState b.1 b.2
      (pass2_mem_le g (pass1 s g) (leftovers1 s g) b.2 hmb)
    rw [hra, hrb]
    exact hab

/-- Witness for C1, at the spec's own example `APPLE` / `ALLOT` and the
duplicated letter `L`. -/
theorem c1_two_pass_pattern_witness :
    ((score appleW allotW).countP isCorrectState
        = (List.zip appleW allotW).countP (fun p => decide (p.1 = p.2)))
    ∧ ((score appleW allotW).countP
          (fun t => decide (t.letter = 'L') && (isCorrectState t || isPresentState t))
        ≤ appleW.countP (fun c => decide (c = 'L')))
    ∧ (((score appleW allotW).filter
          (fun t => decide (t.letter = 'L') && !(isCorrectState t))).Pairwise
        (fun a b => tileRank b ≤ tileRank a))
    ∧ score appleW allotW
        = [.Correct 'A', .Present 'L', .Absent 'L', .Absent 'O', .Absent 'T'] := by
  obtain ⟨h1, h2, h3, h4⟩ :=
    c1_two_pass_pattern appleW allotW (by decide) (by decide)
  exact ⟨h1, h2 'L', h3 'L', h4⟩

/-! ### Evaluation lemmas for validation and submission -/

lemma normalize_eq_ok {g : List Char} (hlen : g.length = WORD_LENGTH) :
    normalize g = .ok (g.map asciiUpper) := by
  unfold normalize
  rw [if_neg (by simp [hlen])]

lemma normalize_eq_err {g : List Char} (hlen : g.length ≠ WORD_LENGTH) :
    normalize g = .error (.InvalidLength WORD_LENGTH g.length) := by
  unfold normalize
  rw [if_pos hlen]

lemma ensure_allowed_eq_ok {allowed : List (List Char)} {w : List Char}
    (hmem : w ∈ allowed) : ensure_allowed allowed w = .ok () := by
  unfold ensure_allowed
  rw [if_pos hmem]

lemma ensure_allowed_eq_err {allowed : List (List Char)} {w : List Char}
    (hmem : w ∉ allowed) :
    ensure_allowed allowed w = .error (.UnknownWord w) := by
  unfold ensure_allowed
  rw [if_neg hmem]

lemma analyze_eq_of_valid {allowed : List (List Char)} {g : List Char}
    (secrets : List (List Char)) (hlen : g.length = WORD_LENGTH)
    (hmem : g.map asciiUpper ∈ allowed) :
    analyze_guess_against allowed g secrets
      = .ok ⟨g.map asciiUpper, tally (g.map asciiUpper) secrets (fun _ => 0)⟩ := by
  simp only [analyze_guess_against, normalize_eq_ok hlen, ensure_allowed_eq_ok hmem]

lemma analyze_eq_invalid_len {allowed : List (List Char)} {g : List Char}
    (secrets : List (List Char)) (hlen : g.length ≠ WORD_LENGTH) :
    analyze_guess_against allowed g secrets
      = .error (.InvalidLength WORD_LENGTH g.length) := by
  simp only [analyze_guess_against, normalize_eq_err hlen]

lemma analyze_eq_unknown {allowed : List (List Char)} {g : List Char}
    (secrets : List (List Char)) (hlen : g.length = WORD_LENGTH)
    (hmem : g.map asciiUpper ∉ allowed) :
    analyze_guess_against allowed g secrets
      = .error (.UnknownWord (g.map asciiUpper)) := by
  simp only [analyze_guess_against, normalize_eq_ok hlen, ensure_allowed_eq_err hmem]

lemma analyze_ok_elim {allowed : List (List Char)} {g : List Char}
    {secrets : List (List Char)} {e : GuessEntropy}
    (h : analyze_guess_against allowed g secrets = .ok e) :
    g.length = WORD_LENGTH ∧ g.map asciiUpper ∈ allowed ∧
      e = ⟨g.map asciiUpper, tally (g.map asciiUpper) secrets (fun _ => 0)⟩ := by
  by_cases hlen : g.length = WORD_LENGTH
  · by_cases hmem : g.map asciiUpper ∈ allowed
    · rw [analyze_eq_of_valid secrets hlen hmem] at h
      cases h
      exact ⟨hlen, hmem, rfl⟩
    · rw [analyze_eq_unknown secrets hlen hmem] at h
      simp at h
  · rw [analyze_eq_invalid_len secrets hlen] at h
    simp at h

lemma submit_eq_invalid_len {allowed : List (List Char)} {g : List Char}
    (i : ℕ) (b : Bool) (game : Wordle) (hlen : g.length ≠ WORD_LENGTH) :
    submit_guess allowed i b game g
      = .error (.InvalidLength WORD_LENGTH g.length) := by
  simp only [submit_guess, normalize_eq_err hlen]

lemma submit_eq_unknown {allowed : List (List Char)} {g : List Char}
    (i : ℕ) (b : Bool) (game : Wordle) (hlen : g.length = WORD_LENGTH)
    (hmem : g.map asciiUpper ∉ allowed) :
    submit_guess allowed i b game g = .error (.UnknownWord (g.map asciiUpper)) := by
  simp only [submit_guess, normalize_eq_ok hlen, ensure_allowed_eq_err hmem]

lemma submit_eq_wordle {allowed : List (List Char)} {g : List Char}
    (i : ℕ) (b : Bool) (game : Wordle) (hm : game.mode = .Wordle)
    (hlen : g.length = WORD_LENGTH) (hmem : g.map asciiUpper ∈ allowed) :
    submit_guess allowed i b game g
      = .ok ({ game with guesses := game.guesses
                ++ [⟨g.map asciiUpper, score game.secret (g.map asciiUpper)⟩] },
             ⟨g.map asciiUpper, score game.secret (g.map asciiUpper)⟩) := by
  simp only [submit_guess, normalize_eq_ok hlen, ensure_allowed_eq_ok hmem, hm]

lemma submit_eq_fibble {allowed : List (List Char)} {g : List Char}
    (i : ℕ) (b : Bool) (game : Wordle) (hm : game.mode = .Fibble)
    (hlen : g.length = WORD_LENGTH) (hmem : g.map asciiUpper ∈ allowed) :
    submit_guess allowed i b game g
      = .ok ({ game with guesses := game.guesses
                ++ [⟨g.map asciiUpper,
                     apply_fibble_lie i b (score game.secret (g.map asciiUpper))⟩] },
             ⟨g.map asciiUpper,
              apply_fibble_lie i b (score game.secret (g.map asciiUpper))⟩) := by
  simp only [submit_guess, normalize_eq_ok hlen, ensure_allowed_eq_ok hmem, hm]

/-! ### Claim C6 -/

/-- C6: `encodePattern` and `decodePatternCode` are pure total functions and
mutual inverses over the reachable pattern space: decoding the code of any
5-digit pattern with digits in `{0,1,2}` renders exactly that pattern
(most significant position first, `Absent = 0`, `Present = 1`,
`Correct = 2`), and every such code lies in `[0, 3^5)`. -/
theorem c6_pattern_code_bijection (p : List ℕ) (hlen : p.length = 5)
    (hd : ∀ d ∈ p, d < 3) :
    pattern_code_to_string (encode_pattern p) = p.map digitChar ∧
      encode_pattern p < PATTERN_SPACE := by
  obtain ⟨h1, h2⟩ := patternChars_encode p hd
  have hW : WORD_LENGTH = p.length := by rw [hlen]; rfl
  constructor
  · show patternChars WORD_LENGTH (encode_pattern p) = p.map digitChar
    rw [hW]
    exact h1
  · show encode_pattern p < 3 ^ WORD_LENGTH
    rw [hW]
    exact h2

/-- Witness for C6 at the concrete pattern `[2,1,0,1,2]` (`GYBYG`). -/
theorem c6_pattern_code_bijection_witness :
    pattern_code_to_string (encode_pattern [2, 1, 0, 1, 2])
        = [2, 1, 0, 1, 2].map digitChar ∧
      encode_pattern [2, 1, 0, 1, 2] < PATTERN_SPACE :=
  c6_pattern_code_bijection [2, 1, 0, 1, 2] (by decide) (by decide)

/-! ### Claim C7 -/

/-- C7: analyzing a valid guess against an empty candidate collection yields
`totalSecrets = 0` and `entropyBits = 0`, and in general zero-count pattern
buckets contribute no term to the entropy fold (the fold over any count list
equals the fold over its nonzero entries). -/
theorem c7_empty_candidates_zero_entropy (allowed : List (List Char))
    (g : List Char) (e : GuessEntropy)
    (h : analyze_guess_against allowed g [] = .ok e) :
    total_secrets e = 0 ∧ entropy_bits e = 0 ∧
      ∀ (T acc : ℝ) (counts : List ℕ),
        entropyFoldFrom T acc counts
          = entropyFoldFrom T acc (counts.filter (fun c => decide (c ≠ 0))) := by
  obtain ⟨hlen, hmem, he⟩ := analyze_ok_elim h
  subst he
  have hzero : ∀ c ∈ countsList
      ⟨g.map asciiUpper, tally (g.map asciiUpper) [] (fun _ => 0)⟩, c = 0 := by
    intro c hc
    rcases List.mem_map.mp hc with ⟨k, _, hk⟩
    exact hk.symm
  refine ⟨?_, ?_, fun T acc counts => entropyFoldFrom_filter T counts acc⟩
  · exact List.sum_eq_zero hzero
  · exact entropyFoldFrom_const _ _ 0 (fun c hc => Or.inl (hzero c hc))

/-- Witness for C7: analyzing CIGAR against no candidates. -/
theorem c7_empty_candidates_zero_entropy_witness :
    total_secrets ⟨cigarW, fun _ => 0⟩ = 0 ∧
      entropy_bits ⟨cigarW, fun _ => 0⟩ = 0 ∧
      entropyFoldFrom 2 5 [0, 3, 0]
        = entropyFoldFrom 2 5 ([0, 3, 0].filter (fun c => decide (c ≠ 0))) := by
  obtain ⟨h1, h2, h3⟩ :=
    c7_empty_candidates_zero_entropy [cigarW] cigarW ⟨cigarW, fun _ => 0⟩ rfl
  exact ⟨h1, h2, h3 2 5 [0, 3, 0]⟩

/-! ### Claim C2 -/

lemma hamming_eq_filter_length :
    ∀ (xs ys : List LetterState),
      ((List.zip xs ys).filter (fun p => decide (p.1 ≠ p.2))).length
        = hammingTiles xs ys
  | [], ys => by cases ys <;> simp [hammingTiles]
  | _ :: _, [] => by simp [hammingTiles]
  | x :: xs, y :: ys => by
      have ih := hamming_eq_filter_length xs ys
      have hz : List.zip (x :: xs) (y :: ys) = (x, y) :: List.zip xs ys := rfl
      have hh : hammingTiles (x :: xs) (y :: ys)
          = (if x = y then 0 else 1) + hammingTiles xs ys := rfl
      rw [hz, hh]
      by_cases h : x = y
      · rw [List.filter_cons_of_neg (by simp [h]), ih, if_pos h]
        omega
      · rw [List.filter_cons_of_pos (by simp [h])]
        simp only [List.length_cons, ih, if_neg h]
        omega

lemma fibble_guess_matches_iff (secret : List Char) (row : GuessResult) :
    fibble_guess_matches secret row = true ↔
      hammingTiles (score secret row.guess) row.letters = 1 := by
  unfold fibble_guess_matches
  rw [decide_eq_true_eq, hamming_eq_filter_length]

/-- C2: under the SingleLie ruleset a candidate secret survives
`remainingSecrets` iff every history row, taken independently, reports a
pattern at tile Hamming distance exactly one from the true pattern of that
candidate against the row's guess; there is no cumulative lie budget. -/
theorem c2_single_lie_filter (secretList : List (List Char)) (game : Wordle)
    (hm : game.mode = .Fibble) (s : List Char) :
    s ∈ remaining_secrets secretList game ↔
      s ∈ secretList ∧
        ∀ row ∈ game.guesses,
          hammingTiles (score s row.guess) row.letters = 1 := by
  unfold remaining_secrets
  simp only [List.mem_filter, secret_matches_history, hm, fibble_history_matches,
    List.all_eq_true]
  constructor
  · rintro ⟨h1, h2⟩
    exact ⟨h1, fun row hr => (fibble_guess_matches_iff s row).mp (h2 row hr)⟩
  · rintro ⟨h1, h2⟩
    exact ⟨h1, fun row hr => (fibble_guess_matches_iff s row).mpr (h2 row hr)⟩

/-- Witness for C2: with secret CIGAR and a Fibble history row reporting
`CCCCP` for guess CIGAR (one lie on the last tile), CIGAR survives. -/
theorem c2_single_lie_filter_witness :
    cigarW ∈ remaining_secrets [cigarW, robotW]
      ⟨cigarW, GameMode.Fibble,
        [⟨cigarW, [.Correct 'C', .Correct 'I', .Correct 'G', .Correct 'A',
          .Present 'R']⟩]⟩ :=
  (c2_single_lie_filter [cigarW, robotW]
      ⟨cigarW, GameMode.Fibble,
        [⟨cigarW, [.Correct 'C', .Correct 'I', .Correct 'G', .Correct 'A',
          .Present 'R']⟩]⟩ rfl cigarW).mpr
    ⟨by decide, by decide⟩

/-! ### Scoring a word against itself -/

lemma score_self : ∀ g : List Char, score g g = g.map LetterState.Correct
  | [] => rfl
  | x :: xs => by
      have h1 : pass1 (x :: xs) (x :: xs) = 2 :: pass1 xs xs := by
        simp [pass1]
      have h2 : leftovers1 (x :: xs) (x :: xs) = leftovers1 xs xs :=
        funext fun c => by simp [leftovers1]
      show List.zipWith mkState (x :: xs)
          (pass2 (x :: xs) (pass1 (x :: xs) (x :: xs))
            (leftovers1 (x :: xs) (x :: xs)))
        = (x :: xs).map LetterState.Correct
      rw [h1, h2, pass2_cons, if_pos rfl]
      simp only [List.zipWith_cons_cons, List.map_cons]
      have htail : List.zipWith mkState xs
          (pass2 xs (pass1 xs xs) (leftovers1 xs xs)) = xs.map LetterState.Correct :=
        score_self xs
      rw [htail]
      rfl

lemma score_eq_self_imp :
    ∀ (w g : List Char), w.length = g.length →
      score w g = g.map LetterState.Correct → w = g
  | [], [], _, _ => rfl
  | [], _ :: _, hlen, _ => by simp at hlen
  | _ :: _, [], hlen, _ => by simp at hlen
  | wh :: ws, gh :: gs, hlen, hsc => by
      have hlen' : ws.length = gs.length := by simpa using hlen
      by_cases h : gh = wh
      · subst h
        have h1 : pass1 (gh :: ws) (gh :: gs) = 2 :: pass1 ws gs := by
          simp [pass1]
        have h2 : leftovers1 (gh :: ws) (gh :: gs) = leftovers1 ws gs :=
          funext fun c => by simp [leftovers1]
        simp only [score, compute_pattern_digits, h1, h2, pass2_cons,
          List.zipWith_cons_cons, List.map_cons, if_true,
          List.cons.injEq] at hsc
        have htail : score ws gs = gs.map LetterState.Correct := hsc.2
        rw [score_eq_self_imp ws gs hlen' htail]
      · have h1 : pass1 (wh :: ws) (gh :: gs) = 0 :: pass1 ws gs := by
          simp [pass1, h]
        simp only [score, compute_pattern_digits, h1, pass2_cons] at hsc
        rw [if_neg (by omega)] at hsc
        by_cases hl : 0 < leftovers1 (wh :: ws) (gh :: gs) gh
        · rw [if_pos hl] at hsc
          simp only [List.zipWith_cons_cons, List.map_cons,
            List.cons.injEq] at hsc
          exact absurd hsc.1 (by simp [mkState])
        · rw [if_neg hl] at hsc
          simp only [List.zipWith_cons_cons, List.map_cons,
            List.cons.injEq] at hsc
          exact absurd hsc.1 (by simp [mkState])

lemma filter_eq_singleton_of_iff {α : Type} [DecidableEq α] :
    ∀ {l : List α} {p : α → Bool} {a : α}, l.Nodup → a ∈ l →
      (∀ x ∈ l, p x = true ↔ x = a) → l.filter p = [a]
  | [], _, a, _, hmem, _ => absurd hmem (List.not_mem_nil a)
  | x :: xs, p, a, hnodup, hmem, hiff => by
      have hnd := List.nodup_cons.mp hnodup
      by_cases hx : x = a
      · subst hx
        have hpx : p x = true := (hiff x (by simp)).mpr rfl
        rw [List.filter_cons_of_pos hpx]
        have hrest : xs.filter p = [] := by
          rw [List.filter_eq_nil_iff]
          intro y hy
          intro hpy
          have := (hiff y (by simp [hy])).mp hpy
          exact hnd.1 (this ▸ hy)
        rw [hrest]
      · have hpx : ¬p x = true := fun hpx => hx ((hiff x (by simp)).mp hpx)
        rw [List.filter_cons_of_neg hpx]
        have hmem' : a ∈ xs := by
          rcases List.mem_cons.mp hmem with h | h
          · exact absurd h.symm hx
          · exact h
        exact filter_eq_singleton_of_iff hnd.2 hmem'
          (fun y hy => hiff y (by simp [hy]))

/-! ### Claim C5 -/

/-- C5: under the Strict (Wordle) ruleset, after submitting the game's true
secret as a guess (on top of any truthfully-scored prior history),
`remainingSecrets` is exactly the singleton containing that secret,
provided the secret dictionary has no duplicates and its words all share the
secret's length. -/
theorem c5_strict_secret_collapse (allowed secretList : List (List Char))
    (game : Wordle) (i : ℕ) (b : Bool) (game' : Wordle) (row : GuessResult)
    (hm : game.mode = .Wordle)
    (hnodup : secretList.Nodup)
    (hmem : game.secret ∈ secretList)
    (hlens : ∀ w ∈ secretList, w.length = game.secret.length)
    (hup : game.secret.map asciiUpper = game.secret)
    (hhist : ∀ r ∈ game.guesses, r.letters = score game.secret r.guess)
    (hsub : submit_guess allowed i b game game.secret = .ok (game', row)) :
    remaining_secrets secretList game' = [game.secret] := by
  by_cases hlen : game.secret.length = WORD_LENGTH
  · by_cases hall : game.secret.map asciiUpper ∈ allowed
    · rw [submit_eq_wordle i b game hm hlen hall, hup] at hsub
      cases hsub
      unfold remaining_secrets
      refine filter_eq_singleton_of_iff hnodup hmem ?_
      intro w hw
      simp only [secret_matches_history, hm, List.all_append,
        List.all_cons, List.all_nil, Bool.and_eq_true, List.all_eq_true,
        decide_eq_true_eq, and_true]
      constructor
      · rintro ⟨-, hnew⟩
        have hmc : score w game.secret = game.secret.map LetterState.Correct := by
          rw [hnew, score_self]
        exact score_eq_self_imp w game.secret
          ((hlens w hw).trans rfl) hmc
      · rintro rfl
        exact ⟨fun r hr => (hhist r hr).symm, rfl⟩
    · rw [submit_eq_unknown i b game hlen hall] at hsub
      simp at hsub
  · rw [submit_eq_invalid_len i b game hlen] at hsub
    simp at hsub

/-- Witness for C5: secret CIGAR, dictionary `[CIGAR, ROBOT]`, empty prior
history; submitting CIGAR collapses the candidates to `[CIGAR]`. -/
theorem c5_strict_secret_collapse_witness :
    remaining_secrets [cigarW, robotW]
      ⟨cigarW, GameMode.Wordle, [⟨cigarW, score cigarW cigarW⟩]⟩ = [cigarW] :=
  c5_strict_secret_collapse [cigarW] [cigarW, robotW] game0 0 true
    ⟨cigarW, GameMode.Wordle, [⟨cigarW, score cigarW cigarW⟩]⟩
    ⟨cigarW, score cigarW cigarW⟩
    rfl (by decide) (by decide) (by decide) (by decide) (by decide) rfl

/-! ### Lengths and element access -/

lemma pass1_length : ∀ s g : List Char, (pass1 s g).length = min s.length g.length
  | [], g => by cases g <;> simp [pass1]
  | _ :: _, [] => by simp [pass1]
  | a :: as, b :: bs => by
      simp [pass1, pass1_length as bs] <;> omega

lemma score_length (s g : List Char) :
    (score s g).length = min s.length g.length := by
  simp only [score, compute_pattern_digits, List.length_zipWith,
    pass2_length, pass1_length]
  omega

lemma map_correct_getD :
    ∀ (l : List Char) (j : ℕ), j < l.length →
      (l.map LetterState.Correct).getD j (.Absent 'A')
        = .Correct (l.getD j 'A')
  | [], j, h => absurd h (by simp)
  | _ :: _, 0, _ => rfl
  | _ :: cs, j + 1, h => map_correct_getD cs j (by simpa using h)

lemma isCorrect_random_of_correct (b : Bool) (c : Char) :
    isCorrectState (random_lie_state b (.Correct c)) = false := by
  cases b <;> rfl

lemma mem_set_self {α : Type} :
    ∀ (l : List α) (j : ℕ) (x : α), j < l.length → x ∈ l.set j x
  | [], j, x, h => absurd h (by simp)
  | a :: as, 0, x, _ => by simp [List.set]
  | a :: as, j + 1, x, h => by
      simp only [List.set]
      exact List.mem_cons_of_mem a (mem_set_self as j x (by simpa using h))

lemma all_set_eq_false {α : Type} {l : List α} {j : ℕ} {x : α} {p : α → Bool}
    (hj : j < l.length) (hx : p x = false) : (l.set j x).all p = false := by
  cases hall : (l.set j x).all p
  · rfl
  · have := List.all_eq_true.mp hall x (mem_set_self l j x hj)
    rw [hx] at this
    cases this

/-! ### Claim C9 -/

/-- C9: in Fibble mode, for every valid submitted guess and every outcome of
the randomness source, the recorded row's pattern is at tile Hamming
distance exactly one from the true pattern — the corrupted pattern, never
the true one, is appended to the history. -/
theorem c9_fibble_records_distance_one (allowed : List (List Char))
    (game : Wordle) (guess : List Char) (i : ℕ) (b : Bool)
    (game' : Wordle) (row : GuessResult)
    (hm : game.mode = .Fibble)
    (hslen : game.secret.length = 5)
    (hsub : submit_guess allowed i b game guess = .ok (game', row)) :
    hammingTiles (score game.secret row.guess) row.letters = 1 ∧
      row.letters ≠ score game.secret row.guess ∧
      game'.guesses = game.guesses ++ [row] := by
  by_cases hlen : guess.length = WORD_LENGTH
  · by_cases hall : guess.map asciiUpper ∈ allowed
    · rw [submit_eq_fibble i b game hm hlen hall] at hsub
      cases hsub
      have hnglen : (guess.map asciiUpper).length = 5 := by
        simpa using hlen
      have htlen : (score game.secret (guess.map asciiUpper)).length = 5 := by
        rw [score_length, hslen, hnglen]
        omega
      have htne : score game.secret (guess.map asciiUpper) ≠ [] := by
        intro he
        rw [he] at htlen
        simp at htlen
      have hfl := apply_fibble_lie_eq i b
        (score game.secret (guess.map asciiUpper)) htne
      have hjlt : i % (score game.secret (guess.map asciiUpper)).length
          < (score game.secret (guess.map asciiUpper)).length := by
        rw [htlen]
        omega
      have h1 : hammingTiles (score game.secret (guess.map asciiUpper))
          (apply_fibble_lie i b (score game.secret (guess.map asciiUpper))) = 1 := by
        rw [hfl]
        exact hammingTiles_set _ _ _ hjlt (random_lie_state_ne b _)
      refine ⟨h1, ?_, rfl⟩
      intro he
      have he' : apply_fibble_lie i b (score game.secret (guess.map asciiUpper))
          = score game.secret (guess.map asciiUpper) := he
      rw [he', hammingTiles_self] at h1
      cases h1
    · rw [submit_eq_unknown i b game hlen hall] at hsub
      simp at hsub
  · rw [submit_eq_invalid_len i b game hlen] at hsub
    simp at hsub

/-- Witness for C9: Fibble game with secret CIGAR, guess ROBOT, lie drawn at
index `0` with branch draw `0`. -/
theorem c9_fibble_records_distance_one_witness :
    hammingTiles (score cigarW robotW)
        (apply_fibble_lie 0 true (score cigarW robotW)) = 1 ∧
      apply_fibble_lie 0 true (score cigarW robotW) ≠ score cigarW robotW ∧
      (⟨cigarW, GameMode.Fibble,
          [⟨robotW, apply_fibble_lie 0 true (score cigarW robotW)⟩]⟩ : Wordle).guesses
        = ([] : List GuessResult)
            ++ [⟨robotW, apply_fibble_lie 0 true (score cigarW robotW)⟩] :=
  c9_fibble_records_distance_one [cigarW, robotW] gameF robotW 0 true
    ⟨cigarW, GameMode.Fibble,
      [⟨robotW, apply_fibble_lie 0 true (score cigarW robotW)⟩]⟩
    ⟨robotW, apply_fibble_lie 0 true (score cigarW robotW)⟩
    rfl (by decide) rfl

/-! ### Claim C10 -/

/-- C10: in Fibble mode, for every outcome of the randomness source,
submitting the game's true secret records a row whose `is_correct()` is
false: `random_lie_state` always returns a different state with the same
letter, so the all-Correct true pattern is corrupted in one tile and the row
is never reported as a win. -/
theorem c10_fibble_secret_never_wins (allowed : List (List Char))
    (game : Wordle) (i : ℕ) (b : Bool) (game' : Wordle) (row : GuessResult)
    (hm : game.mode = .Fibble)
    (hup : game.secret.map asciiUpper = game.secret)
    (hsub : submit_guess allowed i b game game.secret = .ok (game', row)) :
    row.is_correct = false ∧
      ∀ (c : Bool) (st : LetterState),
        random_lie_state c st ≠ st ∧
          (random_lie_state c st).letter = st.letter := by
  refine ⟨?_, fun c st => ⟨random_lie_state_ne c st, random_lie_state_letter c st⟩⟩
  by_cases hlen : game.secret.length = WORD_LENGTH
  · by_cases hall : game.secret.map asciiUpper ∈ allowed
    · rw [submit_eq_fibble i b game hm hlen hall, hup] at hsub
      cases hsub
      show (apply_fibble_lie i b (score game.secret game.secret)).all
          isCorrectState = false
      rw [score_self]
      have hmlen : (game.secret.map LetterState.Correct).length
          = game.secret.length := by simp
      have hpos : 0 < (game.secret.map LetterState.Correct).length := by
        rw [hmlen, hlen]
        decide
      have hne : game.secret.map LetterState.Correct ≠ [] := by
        intro he
        rw [he] at hpos
        simp at hpos
      rw [apply_fibble_lie_eq i b _ hne]
      have hjlt : i % (game.secret.map LetterState.Correct).length
          < (game.secret.map LetterState.Correct).length :=
        Nat.mod_lt i hpos
      refine all_set_eq_false hjlt ?_
      rw [map_correct_getD game.secret _ (by rw [← hmlen]; exact hjlt)]
      exact isCorrect_random_of_correct b _
    · rw [submit_eq_unknown i b game hlen hall] at hsub
      simp at hsub
  · rw [submit_eq_invalid_len i b game hlen] at hsub
    simp at hsub

/-- Witness for C10: Fibble game with secret CIGAR, submitting CIGAR itself
with lie index draw `0` and branch draw `0`. -/
theorem c10_fibble_secret_never_wins_witness :
    (⟨cigarW, apply_fibble_lie 0 true (score cigarW cigarW)⟩
        : GuessResult).is_correct = false ∧
      random_lie_state false (.Correct 'A') ≠ .Correct 'A' ∧
      (random_lie_state false (.Correct 'A')).letter
        = (LetterState.Correct 'A').letter := by
  obtain ⟨h1, h2⟩ := c10_fibble_secret_never_wins [cigarW, robotW] gameF 0 true
    ⟨cigarW, GameMode.Fibble,
      [⟨cigarW, apply_fibble_lie 0 true (score cigarW cigarW)⟩]⟩
    ⟨cigarW, apply_fibble_lie 0 true (score cigarW cigarW)⟩
    rfl (by decide) rfl
  exact ⟨h1, (h2 false (.Correct 'A')).1, (h2 false (.Correct 'A')).2⟩

/-! ### The selection folds of the guess scan -/

lemma toOption_eq_some {ε α : Type} {x : Except ε α} {a : α}
    (h : x.toOption = some a) : x = .ok a := by
  cases x with
  | error e => simp [Except.toOption] at h
  | ok b =>
      simp only [Except.toOption, Option.some.injEq] at h
      rw [h]

lemma getLast?_cons_eq {α : Type} :
    ∀ (x : α) (xs : List α), (x :: xs).getLast? = some (xs.getLastD x)
  | _, [] => rfl
  | x, y :: ys => by
      rw [List.getLast?_cons_cons, getLast?_cons_eq y ys, List.getLastD_cons]

lemma rustMaxBy_cons (x : GuessEntropy) (xs : List GuessEntropy) :
    rustMaxBy (x :: xs)
      = some (xs.foldl
          (fun acc y => if entropy_bits y < entropy_bits acc then acc else y) x) :=
  rfl

lemma rustMaxBy_append {l : List GuessEntropy} {e : GuessEntropy}
    (y : GuessEntropy) (h : rustMaxBy l = some e) :
    rustMaxBy (l ++ [y])
      = some (if entropy_bits y < entropy_bits e then e else y) := by
  cases l with
  | nil => simp [rustMaxBy] at h
  | cons x xs =>
      rw [rustMaxBy_cons] at h
      have hfold := Option.some.inj h
      rw [List.cons_append, rustMaxBy_cons, List.foldl_append, hfold]
      rfl

lemma rustMaxBy_spec (l : List GuessEntropy) (hne : l ≠ []) :
    ∃ e pre post, rustMaxBy l = some e ∧ l = pre ++ e :: post ∧
      (∀ f ∈ l, entropy_bits f ≤ entropy_bits e) ∧
      (∀ f ∈ post, entropy_bits f < entropy_bits e) := by
  induction l using List.reverseRecOn with
  | nil => exact absurd rfl hne
  | append_singleton l y ih =>
      cases l with
      | nil =>
          refine ⟨y, [], [], rfl, by simp, ?_, by simp⟩
          intro f hf
          have : f = y := by simpa using hf
          rw [this]
      | cons x xs =>
          obtain ⟨e, pre, post, h1, h2, h3, h4⟩ := ih (by simp)
          have h1' := rustMaxBy_append y h1
          by_cases hcmp : entropy_bits y < entropy_bits e
          · rw [if_pos hcmp] at h1'
            refine ⟨e, pre, post ++ [y], h1', ?_, ?_, ?_⟩
            · rw [h2]
              simp
            · intro f hf
              rcases List.mem_append.mp hf with hf | hf
              · exact h3 f hf
              · have : f = y := by simpa using hf
                rw [this]
                exact le_of_lt hcmp
            · intro f hf
              rcases List.mem_append.mp hf with hf | hf
              · exact h4 f hf
              · have : f = y := by simpa using hf
                rw [this]
                exact hcmp
          · rw [if_neg hcmp] at h1'
            push_neg at hcmp
            refine ⟨y, x :: xs, [], h1', by simp, ?_, by simp⟩
            intro f hf
            rcases List.mem_append.mp hf with hf | hf
            · exact le_trans (h3 f hf) hcmp
            · have : f = y := by simpa using hf
              rw [this]

lemma calcBestFold_append (l : List GuessEntropy) (y : GuessEntropy) :
    calcBestFold (l ++ [y])
      = match calcBestFold l with
        | none => some y
        | some cur =>
            if entropy_bits cur < entropy_bits y then some y else some cur := by
  unfold calcBestFold
  rw [List.foldl_append]
  rfl

lemma calcBestFold_spec (l : List GuessEntropy) (hne : l ≠ []) :
    ∃ e pre post, calcBestFold l = some e ∧ l = pre ++ e :: post ∧
      (∀ f ∈ l, entropy_bits f ≤ entropy_bits e) ∧
      (∀ f ∈ pre, entropy_bits f < entropy_bits e) := by
  induction l using List.reverseRecOn with
  | nil => exact absurd rfl hne
  | append_singleton l y ih =>
      cases l with
      | nil =>
          refine ⟨y, [], [], rfl, by simp, ?_, by simp⟩
          intro f hf
          have : f = y := by simpa using hf
          rw [this]
      | cons x xs =>
          obtain ⟨e, pre, post, h1, h2, h3, h4⟩ := ih (by simp)
          have h1'' := calcBestFold_append (x :: xs) y
          rw [h1] at h1''
          have h1' : calcBestFold (x :: xs ++ [y])
              = if entropy_bits e < entropy_bits y then some y else some e := h1''
          by_cases hcmp : entropy_bits e < entropy_bits y
          · rw [if_pos hcmp] at h1'
            refine ⟨y, x :: xs, [], h1', by simp, ?_, ?_⟩
            · intro f hf
              rcases List.mem_append.mp hf with hf | hf
              · exact le_of_lt (lt_of_le_of_lt (h3 f hf) hcmp)
              · have : f = y := by simpa using hf
                rw [this]
            · intro f hf
              exact lt_of_le_of_lt (h3 f hf) hcmp
          · rw [if_neg hcmp] at h1'
            push_neg at hcmp
            refine ⟨e, pre, post ++ [y], h1', ?_, ?_, h4⟩
            · rw [h2]
              simp
            · intro f hf
              rcases List.mem_append.mp hf with hf | hf
              · exact h3 f hf
              · have : f = y := by simpa using hf
                rw [this]
                exact hcmp

lemma foldl_step_const :
    ∀ (xs : List GuessEntropy) (x : GuessEntropy) (c : ℝ),
      entropy_bits x = c → (∀ f ∈ xs, entropy_bits f = c) →
      xs.foldl (fun acc y => if entropy_bits y < entropy_bits acc then acc else y) x
        = xs.getLastD x
  | [], _, _, _, _ => rfl
  | y :: ys, x, c, hx, hall => by
      have hy : entropy_bits y = c := hall y (by simp)
      have hstep : (if entropy_bits y < entropy_bits x then x else y) = y := by
        rw [hx, hy, if_neg (lt_irrefl c)]
      rw [List.foldl_cons, hstep,
        foldl_step_const ys y c hy (fun f hf => hall f (by simp [hf])),
        List.getLastD_cons]

lemma rustMaxBy_const (l : List GuessEntropy) (c : ℝ)
    (hc : ∀ f ∈ l, entropy_bits f = c) (hne : l ≠ []) :
    rustMaxBy l = l.getLast? := by
  cases l with
  | nil => exact absurd rfl hne
  | cons x xs =>
      rw [rustMaxBy_cons,
        foldl_step_const xs x c (hc x (by simp)) (fun f hf => hc f (by simp [hf])),
        getLast?_cons_eq]

/-! ### Entropy of a singleton candidate set -/

lemma sum_indicator :
    ∀ (n c : ℕ),
      ((List.range n).map (fun k => if k = c then (1 : ℕ) else 0)).sum
        = if c < n then 1 else 0
  | 0, c => by simp
  | n + 1, c => by
      rw [List.range_succ, List.map_append, List.sum_append, sum_indicator n c]
      simp only [List.map_cons, List.map_nil, List.sum_cons, List.sum_nil]
      split_ifs <;> omega

lemma digits_lt_three (s g : List Char) :
    ∀ d ∈ compute_pattern_digits s g, d < 3 := by
  intro d hd
  rcases pass2_mem_le g (pass1 s g) (leftovers1 s g) d hd with h | h <;> omega

lemma digits_length_le (s g : List Char) (hg : g.length = 5) :
    (compute_pattern_digits s g).length ≤ 5 := by
  show (pass2 g (pass1 s g) (leftovers1 s g)).length ≤ 5
  rw [pass2_length, pass1_length]
  omega

lemma encode_digits_lt (s g : List Char) (hg : g.length = 5) :
    encode_pattern (compute_pattern_digits s g) < PATTERN_SPACE := by
  have h1 := (patternChars_encode _ (digits_lt_three s g)).2
  have h2 : (3 : ℕ) ^ (compute_pattern_digits s g).length ≤ 3 ^ 5 :=
    Nat.pow_le_pow_right (by omega) (digits_length_le s g hg)
  show encode_pattern (compute_pattern_digits s g) < 3 ^ WORD_LENGTH
  exact lt_of_lt_of_le h1 h2

lemma entropy_bits_singleton {allowed : List (List Char)} {g w : List Char}
    {e : GuessEntropy} (h : analyze_guess_against allowed g [w] = .ok e) :
    entropy_bits e = 0 ∧ total_secrets e = 1 := by
  obtain ⟨hlen, hmem, he⟩ := analyze_ok_elim h
  subst he
  have hnglen : (g.map asciiUpper).length = 5 := by
    rw [List.length_map]
    exact hlen.trans rfl
  have hc0 : encode_pattern (compute_pattern_digits w (g.map asciiUpper))
      < PATTERN_SPACE := encode_digits_lt w (g.map asciiUpper) hnglen
  have hcnt : tally (g.map asciiUpper) [w] (fun _ => 0)
      = fun code =>
          if code = encode_pattern (compute_pattern_digits w (g.map asciiUpper))
          then 1 else 0 := by
    funext code
    by_cases hcode :
        code = encode_pattern (compute_pattern_digits w (g.map asciiUpper)) <;>
      simp [tally, hcode]
  have hcl : countsList
      ⟨g.map asciiUpper, tally (g.map asciiUpper) [w] (fun _ => 0)⟩
      = (List.range PATTERN_SPACE).map
          (fun code =>
            if code = encode_pattern (compute_pattern_digits w (g.map asciiUpper))
            then 1 else 0) := by
    show (List.range PATTERN_SPACE).map (tally (g.map asciiUpper) [w] (fun _ => 0))
        = _
    rw [hcnt]
  have htot : total_secrets
      ⟨g.map asciiUpper, tally (g.map asciiUpper) [w] (fun _ => 0)⟩ = 1 := by
    show (countsList _).sum = 1
    rw [hcl, sum_indicator, if_pos hc0]
  refine ⟨?_, htot⟩
  show entropyFoldFrom (total_secrets _) 0 (countsList _) = 0
  refine entropyFoldFrom_const _ _ 0 ?_
  intro c hc
  rw [hcl] at hc
  rcases List.mem_map.mp hc with ⟨k, _, hk⟩
  by_cases hke : k = encode_pattern (compute_pattern_digits w (g.map asciiUpper))
  · right
    rw [← hk, if_pos hke, htot]
  · left
    rw [← hk, if_neg hke]

/-! ### Claims C3 and C4 -/

lemma cex_remaining : remaining_secrets cexSecrets game0 = [cigarW] := by decide

lemma cex_analyzed : analyzedList cexAllowed [cigarW] = [eCigarCex, eRobotCex] :=
  rfl

lemma cex_entropy_cigar : entropy_bits eCigarCex = 0 :=
  (entropy_bits_singleton
    (show analyze_guess_against cexAllowed cigarW [cigarW] = .ok eCigarCex
      from rfl)).1

lemma cex_entropy_robot : entropy_bits eRobotCex = 0 :=
  (entropy_bits_singleton
    (show analyze_guess_against cexAllowed robotW [cigarW] = .ok eRobotCex
      from rfl)).1

lemma cex_lib_returns_robot :
    (best_information_guess cexAllowed cexSecrets game0).map GuessEntropy.guess
      = some robotW := by
  unfold best_information_guess
  rw [cex_remaining, if_neg (by simp), cex_analyzed, rustMaxBy_cons]
  show (some (if entropy_bits eRobotCex < entropy_bits eCigarCex
      then eCigarCex else eRobotCex)).map GuessEntropy.guess = some robotW
  rw [cex_entropy_cigar, cex_entropy_robot, if_neg (lt_irrefl 0)]
  rfl

/-- C3 (amended): with a non-empty candidate set and a non-empty list of
successful analyses, `best_information_guess` scans the allowed list in
order and returns an entry of maximal `entropyBits`; among equally-maximal
entries Rust's `max_by` keeps the LAST-scanned one (the returned entry is
strictly greater than everything after it).  The interactive CLI's
`calculate_guess_suggestions` fold instead keeps the FIRST-scanned maximal
entry (strictly greater than everything before it). -/
theorem c3_best_guess_scan (allowed secretList : List (List Char))
    (game : Wordle)
    (hc : remaining_secrets secretList game ≠ [])
    (ha : analyzedList allowed (remaining_secrets secretList game) ≠ []) :
    (∃ e pre post,
        best_information_guess allowed secretList game = some e ∧
        analyzedList allowed (remaining_secrets secretList game)
          = pre ++ e :: post ∧
        (∀ f ∈ analyzedList allowed (remaining_secrets secretList game),
          entropy_bits f ≤ entropy_bits e) ∧
        (∀ f ∈ post, entropy_bits f < entropy_bits e)) ∧
    (∃ e pre post,
        calcBestFold (analyzedList allowed (remaining_secrets secretList game))
          = some e ∧
        analyzedList allowed (remaining_secrets secretList game)
          = pre ++ e :: post ∧
        (∀ f ∈ analyzedList allowed (remaining_secrets secretList game),
          entropy_bits f ≤ entropy_bits e) ∧
        (∀ f ∈ pre, entropy_bits f < entropy_bits e)) := by
  constructor
  · obtain ⟨e, pre, post, h1, h2, h3, h4⟩ := rustMaxBy_spec _ ha
    refine ⟨e, pre, post, ?_, h2, h3, h4⟩
    unfold best_information_guess
    rw [if_neg hc]
    exact h1
  · exact calcBestFold_spec _ ha

/-- Witness for C3 (amended) at the concrete dictionaries. -/
theorem c3_best_guess_scan_witness :
    (best_information_guess cexAllowed cexSecrets game0).isSome = true ∧
      (calcBestFold (analyzedList cexAllowed
        (remaining_secrets cexSecrets game0))).isSome = true := by
  obtain ⟨⟨e1, p1, q1, h1, -, -, -⟩, ⟨e2, p2, q2, h2, -, -, -⟩⟩ :=
    c3_best_guess_scan cexAllowed cexSecrets game0 (by decide)
      (List.length_pos.mp (by decide))
  rw [h1, h2]
  exact ⟨rfl, rfl⟩

/-- Counterexample for C3 as stated: with allowed list `[CIGAR, ROBOT]` and
single candidate CIGAR, both analyses tie at 0.0 bits and CIGAR is scanned
first, yet `best_information_guess` returns ROBOT — the earliest-scanned
entry does NOT win ties (Rust's `max_by` keeps the last maximum). -/
theorem c3_best_guess_scan_counterexample :
    remaining_secrets cexSecrets game0 = [cigarW] ∧
      analyzedList cexAllowed [cigarW] = [eCigarCex, eRobotCex] ∧
      entropy_bits eCigarCex = 0 ∧ entropy_bits eRobotCex = 0 ∧
      eCigarCex.guess = cigarW ∧ eRobotCex.guess = robotW ∧
      (best_information_guess cexAllowed cexSecrets game0).map
          GuessEntropy.guess = some robotW ∧
      cigarW ≠ robotW :=
  ⟨cex_remaining, cex_analyzed, cex_entropy_cigar, cex_entropy_robot,
    rfl, rfl, cex_lib_returns_robot, by decide⟩

/-- C4 (amended): for a singleton candidate set `{w}`, the CLI's
`|candidates| == 1` shortcut returns `w` with 0.0 bits; every entry
analyzed by the general scan against `{w}` has `entropyBits = 0`; and the
library's general full scan, with every entry tied, returns the LAST
analyzed allowed entry — so the shortcut is not equivalent to the general
algorithm unless `w` happens to be that entry. -/
theorem c4_singleton_shortcut (allowed secretList : List (List Char))
    (game : Wordle) (w : List Char)
    (h1 : remaining_secrets secretList game = [w]) :
    best_guess_with_progress allowed secretList game = some (w, 0) ∧
      (∀ e ∈ analyzedList allowed [w], entropy_bits e = 0) ∧
      best_information_guess allowed secretList game
        = (analyzedList allowed [w]).getLast? := by
  have hzero : ∀ e ∈ analyzedList allowed [w], entropy_bits e = 0 := by
    intro e he
    rcases List.mem_filterMap.mp he with ⟨g, _, hfg⟩
    exact (entropy_bits_singleton (toOption_eq_some hfg)).1
  refine ⟨?_, hzero, ?_⟩
  · unfold best_guess_with_progress
    rw [h1]
  · unfold best_information_guess
    rw [h1, if_neg (by simp)]
    cases hA : analyzedList allowed [w] with
    | nil => rfl
    | cons x xs =>
        rw [← hA]
        exact rustMaxBy_const _ 0 hzero (by rw [hA]; simp)

/-- Witness for C4 (amended) at the concrete dictionaries. -/
theorem c4_singleton_shortcut_witness :
    best_guess_with_progress cexAllowed cexSecrets game0 = some (cigarW, 0) ∧
      entropy_bits eCigarCex = 0 ∧
      best_information_guess cexAllowed cexSecrets game0
        = (analyzedList cexAllowed [cigarW]).getLast? := by
  obtain ⟨h1, h2, h3⟩ :=
    c4_singleton_shortcut cexAllowed cexSecrets game0 cigarW cex_remaining
  refine ⟨h1, h2 eCigarCex ?_, h3⟩
  rw [cex_analyzed]
  exact List.mem_cons_self _ _

/-- Counterexample for C4 as stated: with candidates `{CIGAR}` and allowed
list `[CIGAR, ROBOT]`, the shortcut returns CIGAR with 0.0 bits while the
general full scan (`best_information_guess`) returns ROBOT: the shortcut is
not equivalent to the general algorithm, and the general algorithm does not
return the lone secret. -/
theorem c4_singleton_shortcut_counterexample :
    best_guess_with_progress cexAllowed cexSecrets game0 = some (cigarW, 0) ∧
      (best_information_guess cexAllowed cexSecrets game0).map
          GuessEntropy.guess = some robotW ∧
      robotW ≠ cigarW := by
  refine ⟨?_, cex_lib_returns_robot, by decide⟩
  unfold best_guess_with_progress
  rw [cex_remaining]

/-! ### Claim C8 -/

/-- C8 (amended): the guess-accepting operations normalize by uppercasing
only (no trimming happens inside the library — the CLI trims before
submission), check the raw input's character count against 5, then check
allowed-dictionary membership of the uppercased word; each failure returns
the corresponding recoverable error (`InvalidLength` / `UnknownWord`) and
produces no new game state, and on success the history grows by exactly the
fully validated row — so no invalid guess ever appears in History. -/
theorem c8_validation_before_mutation (allowed : List (List Char))
    (game : Wordle) (guess : List Char) (i : ℕ) (b : Bool)
    (secrets : List (List Char)) :
    (guess.length ≠ 5 →
      submit_guess allowed i b game guess
          = .error (.InvalidLength 5 guess.length) ∧
        analyze_guess_against allowed guess secrets
          = .error (.InvalidLength 5 guess.length)) ∧
    (guess.length = 5 → guess.map asciiUpper ∉ allowed →
      submit_guess allowed i b game guess
          = .error (.UnknownWord (guess.map asciiUpper)) ∧
        analyze_guess_against allowed guess secrets
          = .error (.UnknownWord (guess.map asciiUpper))) ∧
    (∀ (game' : Wordle) (row : GuessResult),
      submit_guess allowed i b game guess = .ok (game', row) →
        guess.length = 5 ∧ row.guess = guess.map asciiUpper ∧
          row.guess ∈ allowed ∧ row.guess.length = 5 ∧
          game'.guesses = game.guesses ++ [row] ∧
          game'.secret = game.secret ∧ game'.mode = game.mode) := by
  refine ⟨?_, ?_, ?_⟩
  · intro h5
    exact ⟨submit_eq_invalid_len i b game h5,
      analyze_eq_invalid_len secrets h5⟩
  · intro h5 hmem
    exact ⟨submit_eq_unknown i b game h5 hmem,
      analyze_eq_unknown secrets h5 hmem⟩
  · intro game' row hsub
    by_cases h5 : guess.length = WORD_LENGTH
    · by_cases hmem : guess.map asciiUpper ∈ allowed
      · cases hmode : game.mode with
        | Wordle =>
            rw [submit_eq_wordle i b game hmode h5 hmem] at hsub
            cases hsub
            refine ⟨h5, rfl, hmem, ?_, rfl, rfl, hmode⟩
            show (guess.map asciiUpper).length = 5
            rw [List.length_map]
            exact h5
        | Fibble =>
            rw [submit_eq_fibble i b game hmode h5 hmem] at hsub
            cases hsub
            refine ⟨h5, rfl, hmem, ?_, rfl, rfl, hmode⟩
            show (guess.map asciiUpper).length = 5
            rw [List.length_map]
            exact h5
      · rw [submit_eq_unknown i b game h5 hmem] at hsub
        simp at hsub
    · rw [submit_eq_invalid_len i b game h5] at hsub
      simp at hsub

/-- Witness for C8 (amended): a one-letter guess is rejected with
`InvalidLength` by both operations. -/
theorem c8_validation_before_mutation_witness :
    submit_guess [cigarW] 0 true game0 ['A']
        = .error (.InvalidLength 5 1) ∧
      analyze_guess_against [cigarW] ['A'] []
        = .error (.InvalidLength 5 1) :=
  (c8_validation_before_mutation [cigarW] game0 ['A'] 0 true []).1 (by decide)

/-- Counterexample for C8 as stated: the input `" CIGAR"` (leading space)
trims and uppercases to the allowed 5-letter word CIGAR, so under the
claim's trim-first normalization it would pass both checks; yet the code
never trims and rejects it with `InvalidLength` computed on the raw
6-character input. -/
theorem c8_no_trim_counterexample :
    ((' ' :: cigarW).dropWhile (fun c => decide (c = ' '))).map asciiUpper
        ∈ ([cigarW] : List (List Char)) ∧
      ((((' ' :: cigarW).dropWhile (fun c => decide (c = ' '))).map
          asciiUpper).length = 5) ∧
      submit_guess [cigarW] 0 true game0 (' ' :: cigarW)
        = .error (.InvalidLength 5 6) := by
  refine ⟨by decide, by decide, ?_⟩
  exact submit_eq_invalid_len 0 true game0 (by decide)

end Fibble
